import Mathlib

set_option maxHeartbeats 1000000

/-
Verification of the singrep wordlist scanner (src/main.rs) via a shallow
embedding.  Bytes are modelled as `Nat` (the newline byte is 10), the
wordlist file as a `List Nat`, Rust `usize` arithmetic as `Nat` with an
explicit wrap modulo 2^64 where the source can underflow, and panics
(out-of-bounds indexing, division by zero) as distinguished error results.
The regex engine and the OS page-cache measurements are external to the
source file and are modelled as abstract parameters (a predicate
`List Nat → Bool` for a compiled regex, a `Bool` for the `mincore`-derived
"less than 97% cached" test).  The dispatcher loop is given explicit fuel;
exhausted fuel is a distinguished result, never conflated with normal
termination or with a panic.
-/

namespace Singrep

/-- Word size of the target platform: Rust `usize` arithmetic wraps modulo
this value in release builds. -/
def USIZE : Nat := 2 ^ 64

/-- Rust `usize` subtraction of 1 with wrap-around, as evaluated in the
dispatcher guard `pos < wordlist.length - 1` (src/main.rs:428). -/
def usizeSub1 (n : Nat) : Nat := (n + USIZE - 1) % USIZE

/-- The pattern structure of src/main.rs:139-146: the byte string to find and
the two 256-entry prefilter tables, modelled as Boolean functions on bytes. -/
structure ToFind where
  value : List Nat
  start : Nat → Bool
  second : Nat → Bool

/-- `parse_tofind` (src/main.rs:148-167).  The source writes
`start[value[0]] = true` with no length check, so the empty pattern panics
with an out-of-bounds index: that is the `none` case.  `second[b]` is true
iff the pattern has length `> 1` and `b` is its second byte. -/
def parse_tofind (tofind : List Nat) : Option ToFind :=
  match tofind with
  | [] => none
  | v0 :: rest =>
    some { value := v0 :: rest,
           start := fun b => b == v0,
           second := fun b => decide (0 < rest.length) && b == rest.getD 0 0 }

/-- `find` (src/main.rs:261-281): the prefilter-gated exact-equality check.
The source indexes `clear[0]`, which would panic on an empty slice; every
caller filters out empty lines first, and the `[]` branch is never reached
from the worker loop. -/
def find (tf : ToFind) (clear : List Nat) : Bool :=
  match clear with
  | [] => false
  | c0 :: rest =>
    if !(tf.start c0) then false
    else if decide (0 < rest.length) && !(tf.second (rest.getD 0 0)) then false
    else tf.value == c0 :: rest

/-- Plain byte-for-byte equality of a line with the pattern value.  Modelled
from the spec: the reference behaviour that the prefilter-gated `find` is
claimed to refine. -/
def exactEqualSpec (v clear : List Nat) : Bool := clear == v

/-- Rust `slice::windows(n)`: all contiguous sub-slices of length `n`
(src/main.rs:357).  For `n` larger than the list there are no windows; the
source panics for `n = 0`, which cannot happen because `parse_tofind`
rejects the empty pattern first. -/
def windows (n : Nat) (l : List Nat) : List (List Nat) :=
  (List.range (l.length + 1 - n)).map (fun i => (l.drop i).take n)

/-- The three matcher variants selected in the worker loop
(src/main.rs:349-362). -/
inductive MatchMode where
  | regexM (re : List Nat → Bool)
  | exact (tf : ToFind)
  | substring (tf : ToFind)

/-- Per-line matching as performed by a worker (src/main.rs:349-362): the
regex branch applies the compiled matcher, the exact branch applies `find`,
and the substring branch applies `find` to every window of the pattern's
length, succeeding iff some window matches. -/
def matches_line : MatchMode → List Nat → Bool
  | .regexM re, clear => re clear
  | .exact tf, clear => find tf clear
  | .substring tf, clear => (windows tf.value.length clear).any (fun sub => find tf sub)

/-- Core of `message.split(|c| *c == 10)` (src/main.rs:338): the first
segment of the list up to a newline, paired with the split of the rest. -/
def split_newlines_core : List Nat → List Nat × List (List Nat)
  | [] => ([], [])
  | c :: rest =>
    let p := split_newlines_core rest
    if c = 10 then ([], p.1 :: p.2) else (c :: p.1, p.2)

/-- `message.split(|c| *c == 10)`: the (possibly empty) segments between
newline bytes, as Rust's `split` yields them. -/
def split_newlines (l : List Nat) : List (List Nat) :=
  (split_newlines_core l).1 :: (split_newlines_core l).2

/-- The lines a worker actually examines from a chunk: the split segments
with the empty ones removed by `.filter(|l| !l.is_empty())`
(src/main.rs:338). -/
def nonempty_lines (c : List Nat) : List (List Nat) :=
  (split_newlines c).filter (fun s => !s.isEmpty)

/-- Left inverse of `split_newlines`: re-joining the segments with the
newline byte recovers the original list.  Used to relate segment offsets to
the original byte positions. -/
def join_newlines : List (List Nat) → List Nat
  | [] => []
  | s :: rest =>
    s ++ match rest with
         | [] => []
         | _ :: _ => 10 :: join_newlines rest

/-- Worker emission with `--position` (src/main.rs:338-372): iterate over the
nonempty segments only, advance the local cursor by `len + 1` per segment,
and for each match report `pos - len - 1` (the cursor value before the
advance) together with the line.  Empty segments are skipped by the filter
and do not advance the cursor — that is the source's arithmetic, kept
verbatim. -/
def position_lines (m : List Nat → Bool) : Nat → List (List Nat) → List (Nat × List Nat)
  | _, [] => []
  | pos, clear :: rest =>
    (if m clear then [(pos + clear.length + 1 - clear.length - 1, clear)] else [])
      ++ position_lines m (pos + clear.length + 1) rest

/-- A worker's `--position` output for one chunk message `(o, c)`. -/
def worker_positions (m : List Nat → Bool) (o : Nat) (c : List Nat) : List (Nat × List Nat) :=
  position_lines m o ((split_newlines c).filter (fun s => !s.isEmpty))

/-- True byte offsets of all split segments of a chunk that starts at file
offset `pos`: every segment advances the offset by `len + 1`, empty or not. -/
def segment_offsets : Nat → List (List Nat) → List (Nat × List Nat)
  | _, [] => []
  | pos, s :: rest => (pos, s) :: segment_offsets (pos + s.length + 1) rest

/-- Reported and true offsets computed side by side over the split segments:
`rp` advances only on nonempty segments (the worker's arithmetic), `ap`
advances on every segment (the true file offset).  Each retained element
pairs the worker-reported offset with the true offset of the same line. -/
def paired_offsets : Nat → Nat → List (List Nat) → List ((Nat × Nat) × List Nat)
  | _, _, [] => []
  | rp, ap, s :: rest =>
    if s.isEmpty then paired_offsets rp (ap + s.length + 1) rest
    else ((rp, ap), s) :: paired_offsets (rp + s.length + 1) (ap + s.length + 1) rest

/-- The paired-offset walk extended with a counter of the empty segments
skipped so far: `rp` advances only on nonempty segments (the worker's
arithmetic), `ap` advances on every segment (the true file offset), and `e`
increments exactly on the skipped empty segments.  Each retained element
pairs the worker-reported offset, the true offset, and the number of empty
segments preceding that line in the chunk. -/
def offset_walk : Nat → Nat → Nat → List (List Nat) → List ((Nat × Nat × Nat) × List Nat)
  | _, _, _, [] => []
  | rp, ap, e, s :: rest =>
    if s.isEmpty then offset_walk rp (ap + s.length + 1) (e + 1) rest
    else ((rp, ap, e), s) :: offset_walk (rp + s.length + 1) (ap + s.length + 1) e rest

/-- The stats record sent from workers to the dispatcher
(src/main.rs:251-259). -/
structure Stats where
  cracked : Nat
  hashed : Nat
  waits : Nat
  kbs : Nat

/-- The dispatcher's tunables: `--shard`, `--cache` and `--first`. -/
structure DispatchArgs where
  chunkSize : Nat
  cacheSize : Nat
  first : Bool

/-- Result of the dispatcher loop: the list of `(offset, bytes)` chunk
messages sent to the work queue together with the successive values taken by
`cache_point`, or a panic (out-of-bounds index / division by zero), or
exhausted fuel (a model artifact distinct from both). -/
inductive DRes where
  | ok (chunks : List (Nat × List Nat)) (cachePoints : List Nat)
  | panic
  | fuelOut
  deriving DecidableEq

/-- The inner newline-search loop of the dispatcher (src/main.rs:435-437):
`while mmap[to - 1] != 10 && to < length { to += 1 }`.  The index is
evaluated first, so `to = 0` (usize wrap on `to - 1`) or `to > length` is a
panic, modelled as `none`.  The loop advances at most `length` times; the
fuel argument is instantiated with `length + 1` below and can therefore
never run out on a reachable call. -/
def find_newline (w : List Nat) : Nat → Nat → Option Nat
  | 0, _ => none
  | f + 1, t =>
    if t = 0 then none
    else if h : t - 1 < w.length then
      if w[t - 1] = 10 then some t
      else if t < w.length then find_newline w f (t + 1)
      else some t
    else none

/-- The newline search started from a tentative chunk end. -/
def findTo (w : List Nat) (t : Nat) : Option Nat := find_newline w (w.length + 1) t

/-- The tentative chunk end (src/main.rs:430-433): `pos + chunk_size`, capped
at the file length. -/
def tentative_to (w : List Nat) (pos chunkSize : Nat) : Nat :=
  if w.length ≤ pos + chunkSize then w.length else pos + chunkSize

/-- The `cache_point` update after a prefetch (src/main.rs:476-481):
advance by `cache_size / 2`, capped at the file length. -/
def advance_cache_point (cacheSize len cp : Nat) : Nat :=
  if len ≤ cp + cacheSize / 2 then len else cp + cacheSize / 2

/-- The `cache_point` chosen by `initialise_wordlist` (src/main.rs:194-227).
`needWarm` abstracts the `mincore`-derived test `percent_cached < 97.0`:
when warming is needed, the first `cache_size` bytes (or the whole file, if
smaller) are read and `cache_point` is set accordingly; otherwise the file
was already cached and `cache_point` is the file length. -/
def initialise_cache_point (needWarm : Bool) (len cacheSize : Nat) : Nat :=
  if needWarm then (if cacheSize < len then cacheSize else len) else len

/-- `check_thresh` (src/main.rs:424): the dispatcher polls the stats channel
once every 50 chunks. -/
def check_thresh : Nat := 50

/-- The `cracked` counter after the checkin at the given `count`
(src/main.rs:447-452): every `check_thresh` chunks one stats message is
drained non-blockingly (the `oracle`) and its `cracked` added. -/
def dispatchCracked (oracle : Nat → Option Stats) (count cracked : Nat) : Nat :=
  if count % check_thresh = 0 then
    match oracle count with
    | some s => cracked + s.cracked
    | none => cracked
  else cracked

/-- The checkin's early-exit decision (src/main.rs:453-456): in `--first`
mode, break out of the dispatch loop once the accumulated `cracked` equals
exactly 1. -/
def dispatchBreak (a : DispatchArgs) (oracle : Nat → Option Stats) (count cracked : Nat) : Bool :=
  if count % check_thresh = 0 then
    match oracle count with
    | some s => a.first && (cracked + s.cracked == 1)
    | none => false
  else false

/-- The dispatcher loop of `read_wordlist` (src/main.rs:427-492), with fuel.
State: `pos` (read cursor), `count` (chunk counter, starts at 1), `cracked`
(matches accumulated from checkins), `cp` (`cache_point`).  `oracle` models
the non-blocking `try_recv` on the stats channel at the checkin with the
given `count` value.  Each loop iteration: evaluate the guard
`pos < length - 1` with wrapping usize subtraction; find the chunk end on a
newline (panic on out-of-bounds); send `(pos, mmap[pos..to])`; set
`pos = to - 1`; every `check_thresh` chunks drain one stats message and, in
`--first` mode, break once the accumulated `cracked` equals 1; finally run
the sliding-window trigger, which panics if `cache_size / 2 = 0` (Rust `%`
by zero) and otherwise may advance `cache_point`, recorded in the returned
trace. -/
def read_wordlist (w : List Nat) (a : DispatchArgs) (oracle : Nat → Option Stats) :
    Nat → Nat → Nat → Nat → Nat → DRes
  | _, _, _, _, 0 => .fuelOut
  | pos, count, cracked, cp, fuel + 1 =>
    if pos < usizeSub1 w.length then
      match findTo w (tentative_to w pos a.chunkSize) with
      | none => .panic
      | some t =>
        if dispatchBreak a oracle count cracked then
          .ok [(pos, (w.drop pos).take (t - pos))] []
        else if a.cacheSize / 2 = 0 then .panic
        else if (t - 1) % (a.cacheSize / 2) ≤ a.chunkSize ∧ cp < w.length then
          match read_wordlist w a oracle (t - 1) (count + 1)
              (dispatchCracked oracle count cracked)
              (advance_cache_point a.cacheSize w.length cp) fuel with
          | .ok cs cps =>
            .ok ((pos, (w.drop pos).take (t - pos)) :: cs)
              (advance_cache_point a.cacheSize w.length cp :: cps)
          | r => r
        else
          match read_wordlist w a oracle (t - 1) (count + 1)
              (dispatchCracked oracle count cracked) cp fuel with
          | .ok cs cps => .ok ((pos, (w.drop pos).take (t - pos)) :: cs) cps
          | r => r
    else .ok [] []

/-- End-to-end output of one run without `--position`: the dispatcher's
chunks, each split on newlines, empty segments dropped, and the matching
lines kept.  The real process interleaves per-worker buffers on stdout in an
unspecified order, but every chunk is owned by exactly one worker and every
match in it is appended exactly once, so this list is the stdout content up
to reordering (the same multiset). -/
def pipeline (w : List Nat) (a : DispatchArgs) (oracle : Nat → Option Stats)
    (mode : MatchMode) (cp fuel : Nat) : Option (List (List Nat)) :=
  match read_wordlist w a oracle 0 1 0 cp fuel with
  | .ok cs _ => some (cs.flatMap (fun oc => (nonempty_lines oc.2).filter (matches_line mode)))
  | _ => none

/-- End-to-end output of one run with `--position`: each emitted line paired
with the decimal offset the worker prints before the colon. -/
def pipelinePos (w : List Nat) (a : DispatchArgs) (oracle : Nat → Option Stats)
    (mode : MatchMode) (cp fuel : Nat) : Option (List (Nat × List Nat)) :=
  match read_wordlist w a oracle 0 1 0 cp fuel with
  | .ok cs _ => some (cs.flatMap (fun oc => worker_positions (matches_line mode) oc.1 oc.2))
  | _ => none

/-- Outcome of `setup_workers` (src/main.rs:283-407) as far as pattern
handling goes: it runs `Regex::new(&args.tofind).unwrap()` unconditionally
(src/main.rs:289), so a failing compile aborts regardless of the mode flags;
on success each worker selects regex, exact or substring matching from the
flags.  `compile` abstracts the external regex compiler. -/
inductive SetupResult where
  | ok (mode : MatchMode)
  | panicRegex

/-- The pattern-handling part of `setup_workers`: compile the pattern as a
regex (unwrap: `none` panics), then select the matcher variant that each
worker will use (src/main.rs:289, 349-362). -/
def setup_workers (compile : List Nat → Option (List Nat → Bool)) (tf : ToFind)
    (pattern : List Nat) (exactFlag regexFlag : Bool) : SetupResult :=
  match compile pattern with
  | none => .panicRegex
  | some re =>
    .ok (if regexFlag then .regexM re else if exactFlag then .exact tf else .substring tf)

/-- Result of `main` (src/main.rs:497-591) for the purposes of ordering:
`parse_tofind` runs first (src/main.rs:502) and a panic there aborts the
process before `initialise_wordlist` ever opens the wordlist
(src/main.rs:535). -/
inductive MainResult where
  | panicParse
  | proceeded (out : Option (List (List Nat)))

/-- `main`: parse the pattern (panicking on the empty string before the
file is touched), then build the matcher mode from the flags and run the
pipeline over the wordlist. -/
def run_main (pattern w : List Nat) (a : DispatchArgs) (oracle : Nat → Option Stats)
    (needWarm exactFlag regexFlag : Bool) (re : List Nat → Bool) (fuel : Nat) : MainResult :=
  match parse_tofind pattern with
  | none => .panicParse
  | some tf =>
    let mode : MatchMode := if regexFlag then .regexM re else if exactFlag then .exact tf
                            else .substring tf
    .proceeded (pipeline w a oracle mode (initialise_cache_point needWarm w.length a.cacheSize) fuel)

/-- The pattern structure `parse_tofind` builds for the one-byte pattern
`"a"` (byte 97). -/
def tofindA : ToFind :=
  { value := [97], start := fun b => b == 97, second := fun _ => false }

/-- The pattern structure `parse_tofind` builds for the pattern `"bb"`
(bytes 98, 98). -/
def tofindBB : ToFind :=
  { value := [98, 98], start := fun b => b == 98, second := fun b => b == 98 }

/-- The pattern structure `parse_tofind` builds for the one-byte pattern
`"("` (byte 40), a string that is not a valid regular expression. -/
def tofindParen : ToFind :=
  { value := [40], start := fun b => b == 40, second := fun _ => false }

/-- A stats channel that is always empty: every `try_recv` fails. -/
def oracleNone : Nat → Option Stats := fun _ => none

/-- The default tunables of the CLI: `--shard 393728`, `--cache 2147483648`,
`--first` off. -/
def argsDefault : DispatchArgs := ⟨393728, 2147483648, false⟩

/-- The default tunables with `--first` on. -/
def argsDefaultFirst : DispatchArgs := ⟨393728, 2147483648, true⟩

/-- Default tunables with a 2-byte `--shard`, small enough to split a tiny
file into several chunks. -/
def argsShard2 : DispatchArgs := ⟨2, 2147483648, false⟩

/-! Arithmetic facts about the wrapped guard subtraction. -/

theorem usizeSub1_zero : usizeSub1 0 = USIZE - 1 := by
  have h : (0 + USIZE - 1) = USIZE - 1 := by omega
  rw [usizeSub1, h, Nat.mod_eq_of_lt]
  have : 0 < USIZE := by norm_num [USIZE]
  omega

theorem usizeSub1_eq {n : Nat} (h1 : 1 ≤ n) (h2 : n < USIZE) : usizeSub1 n = n - 1 := by
  have h : n + USIZE - 1 = (n - 1) + USIZE := by omega
  rw [usizeSub1, h, Nat.add_mod_right, Nat.mod_eq_of_lt (by omega)]

theorem guard_iff {n pos : Nat} (h1 : 1 ≤ n) (h2 : n < USIZE) :
    pos < usizeSub1 n ↔ pos + 1 < n := by
  rw [usizeSub1_eq h1 h2]; omega

/-! Facts about the newline search. -/

theorem find_newline_some {w : List Nat} :
    ∀ {f t r : Nat}, find_newline w f t = some r →
      t ≤ r ∧ 1 ≤ r ∧ r ≤ w.length ∧ (w[r - 1]? = some 10 ∨ r = w.length) := by
  intro f
  induction f with
  | zero => intro t r h; exact absurd h (by simp [find_newline])
  | succ f ih =>
    intro t r h
    rw [find_newline] at h
    split at h
    · exact absurd h (by simp)
    · split at h
      · rename_i ht0 hlt
        split at h
        · rename_i h10
          cases h
          exact ⟨le_refl _, by omega, by omega,
            Or.inl (by rw [List.getElem?_eq_getElem hlt, h10])⟩
        · split at h
          · have := ih h
            exact ⟨by omega, this.2.1, this.2.2.1, this.2.2.2⟩
          · cases h
            exact ⟨le_refl _, by omega, by omega, Or.inr (by omega)⟩
      · exact absurd h (by simp)

theorem findTo_some {w : List Nat} {t r : Nat} (h : findTo w t = some r) :
    t ≤ r ∧ 1 ≤ r ∧ r ≤ w.length ∧ (w[r - 1]? = some 10 ∨ r = w.length) :=
  find_newline_some h

theorem tentative_to_bounds {w : List Nat} {pos cs : Nat} (hcs : 1 ≤ cs)
    (hpos : pos + 1 < w.length) :
    pos + 1 ≤ tentative_to w pos cs ∧ tentative_to w pos cs ≤ w.length := by
  rw [tentative_to]; split <;> omega

/-! Facts about splitting on newlines. -/

theorem split_newlines_core_append (a b : List Nat) :
    split_newlines_core (a ++ 10 :: b) =
      ((split_newlines_core a).1, (split_newlines_core a).2 ++ split_newlines b) := by
  induction a with
  | nil => simp [split_newlines_core, split_newlines]
  | cons c rest ih =>
    have h1 : split_newlines_core ((c :: rest) ++ 10 :: b) =
        (let p := split_newlines_core (rest ++ 10 :: b)
         if c = 10 then ([], p.1 :: p.2) else (c :: p.1, p.2)) := rfl
    have h2 : split_newlines_core (c :: rest) =
        (let p := split_newlines_core rest
         if c = 10 then ([], p.1 :: p.2) else (c :: p.1, p.2)) := rfl
    rw [h1, h2, ih]
    by_cases hc : c = 10 <;> simp [hc]

theorem split_newlines_append (a b : List Nat) :
    split_newlines (a ++ 10 :: b) = split_newlines a ++ split_newlines b := by
  simp [split_newlines, split_newlines_core_append]

theorem nonempty_lines_nil : nonempty_lines [] = [] := rfl

theorem nonempty_lines_append (a b : List Nat) :
    nonempty_lines (a ++ 10 :: b) = nonempty_lines a ++ nonempty_lines b := by
  simp [nonempty_lines, split_newlines_append, List.filter_append]

theorem nonempty_lines_newline (b : List Nat) :
    nonempty_lines (10 :: b) = nonempty_lines b := by
  have h := nonempty_lines_append [] b
  simpa [nonempty_lines_nil] using h

theorem nonempty_lines_end_newline (a : List Nat) :
    nonempty_lines (a ++ [10]) = nonempty_lines a := by
  have h := nonempty_lines_append a []
  simpa [nonempty_lines_nil] using h

theorem join_split (l : List Nat) : join_newlines (split_newlines l) = l := by
  induction l with
  | nil => rfl
  | cons c rest ih =>
    by_cases hc : c = 10
    · subst hc
      have h1 : split_newlines (10 :: rest) = [] :: split_newlines rest := by
        simpa using split_newlines_append [] rest
      rw [h1, show split_newlines rest =
        (split_newlines_core rest).1 :: (split_newlines_core rest).2 from rfl]
      rw [show split_newlines rest =
        (split_newlines_core rest).1 :: (split_newlines_core rest).2 from rfl] at ih
      simp only [join_newlines]
      simpa using ih
    · have h1 : split_newlines (c :: rest) =
          (c :: (split_newlines_core rest).1) :: (split_newlines_core rest).2 := by
        simp [split_newlines, split_newlines_core, hc]
      rw [h1]
      rw [show split_newlines rest =
        (split_newlines_core rest).1 :: (split_newlines_core rest).2 from rfl] at ih
      cases hp : (split_newlines_core rest).2 with
      | nil =>
        rw [hp] at ih
        have ih2 : (split_newlines_core rest).1 = rest := by
          simpa [join_newlines] using ih
        simp [join_newlines, ih2]
      | cons s ss =>
        rw [hp] at ih
        simp only [join_newlines] at ih ⊢
        conv_rhs => rw [← ih]
        simp

/-! Offsets of segments inside a re-joined chunk. -/

theorem segment_offsets_mem {p : Nat} {s : List Nat} :
    ∀ {segs : List (List Nat)} {pos : Nat}, (p, s) ∈ segment_offsets pos segs →
      pos ≤ p ∧ ((join_newlines segs).drop (p - pos)).take s.length = s := by
  intro segs
  induction segs with
  | nil => intro pos h; simp [segment_offsets] at h
  | cons s0 rest ih =>
    intro pos h
    rw [segment_offsets] at h
    rcases List.mem_cons.mp h with h1 | h2
    · have hps : p = pos ∧ s = s0 := by simpa [Prod.ext_iff] using h1
      obtain ⟨rfl, rfl⟩ := hps
      refine ⟨le_refl _, ?_⟩
      rw [Nat.sub_self, List.drop_zero]
      cases rest with
      | nil => simp [join_newlines]
      | cons r t =>
        have hj : join_newlines (s :: r :: t) = s ++ (10 :: join_newlines (r :: t)) := by
          simp [join_newlines]
        rw [hj, List.take_left]
    · have hih := ih h2
      refine ⟨by omega, ?_⟩
      cases rest with
      | nil => simp [segment_offsets] at h2
      | cons r t =>
        have hd : p - pos = (s0 ++ [10]).length + (p - (pos + s0.length + 1)) := by
          simp only [List.length_append, List.length_cons, List.length_nil]
          omega
        have hj : join_newlines (s0 :: r :: t) = (s0 ++ [10]) ++ join_newlines (r :: t) := by
          simp [join_newlines]
        rw [hj, hd, List.drop_append]
        exact hih.2

/-- Lift a reconstruction inside a chunk to a reconstruction in the whole
file, when the chunk is a slice of the file starting at offset `o`. -/
theorem take_drop_lift {w c s : List Nat} {o k : Nat}
    (hc : c = (w.drop o).take c.length) (h : (c.drop k).take s.length = s) :
    (w.drop (o + k)).take s.length = s := by
  rw [hc] at h
  rw [List.drop_take, List.drop_drop] at h
  rw [List.take_take] at h
  have hl := congrArg List.length h
  simp only [List.length_take, List.length_drop] at hl
  have hmin : s.length ⊓ (c.length - k) = s.length := by omega
  rwa [hmin] at h

/-! Reported vs true offsets in a worker's chunk walk. -/

theorem paired_offsets_reported (m : List Nat → Bool) :
    ∀ (segs : List (List Nat)) (rp ap : Nat),
      position_lines m rp (segs.filter (fun s => !s.isEmpty)) =
        ((paired_offsets rp ap segs).filter (fun x => m x.2)).map (fun x => (x.1.1, x.2)) := by
  intro segs
  induction segs with
  | nil => intro rp ap; rfl
  | cons s rest ih =>
    intro rp ap
    by_cases hs : s.isEmpty
    · simp only [List.filter_cons, hs, Bool.not_true, paired_offsets, if_pos]
      exact ih rp (ap + s.length + 1)
    · have hs' : (!s.isEmpty) = true := by simp [hs]
      rw [List.filter_cons]
      simp only [hs', if_pos]
      rw [paired_offsets, if_neg hs, position_lines]
      rw [show rp + s.length + 1 - s.length - 1 = rp from by omega]
      rw [ih (rp + s.length + 1) (ap + s.length + 1)]
      by_cases hm : m s
      · simp [List.filter_cons, hm]
      · simp [List.filter_cons, hm]

theorem paired_offsets_true :
    ∀ (segs : List (List Nat)) (rp ap : Nat),
      (paired_offsets rp ap segs).map (fun x => (x.1.2, x.2)) =
        (segment_offsets ap segs).filter (fun q => !q.2.isEmpty) := by
  intro segs
  induction segs with
  | nil => intro rp ap; rfl
  | cons s rest ih =>
    intro rp ap
    by_cases hs : s.isEmpty
    · simp only [paired_offsets, hs, if_pos, segment_offsets, List.filter_cons,
        Bool.not_true]
      exact ih rp (ap + s.length + 1)
    · have hs' : (!s.isEmpty) = true := by simp [hs]
      rw [paired_offsets, if_neg hs, segment_offsets, List.filter_cons]
      simp only [hs', if_pos, List.map_cons]
      exact congrArg (List.cons _) (ih (rp + s.length + 1) (ap + s.length + 1))

theorem paired_offsets_le :
    ∀ {segs : List (List Nat)} {rp ap : Nat}, rp ≤ ap →
      ∀ x ∈ paired_offsets rp ap segs, x.1.1 ≤ x.1.2 := by
  intro segs
  induction segs with
  | nil => intro rp ap _ x hx; simp [paired_offsets] at hx
  | cons s rest ih =>
    intro rp ap hle x hx
    rw [paired_offsets] at hx
    by_cases hs : s.isEmpty
    · rw [if_pos hs] at hx
      exact ih (by omega) x hx
    · rw [if_neg hs] at hx
      rcases List.mem_cons.mp hx with h1 | h2
      · subst h1; exact hle
      · exact ih (by omega) x h2

theorem paired_offsets_ne :
    ∀ {segs : List (List Nat)} {rp ap : Nat} {x}, x ∈ paired_offsets rp ap segs →
      x.2 ≠ [] := by
  intro segs
  induction segs with
  | nil => intro rp ap x hx; simp [paired_offsets] at hx
  | cons s rest ih =>
    intro rp ap x hx
    rw [paired_offsets] at hx
    by_cases hs : s.isEmpty
    · rw [if_pos hs] at hx
      exact ih hx
    · rw [if_neg hs] at hx
      rcases List.mem_cons.mp hx with h1 | h2
      · subst h1
        simpa [List.isEmpty_iff] using hs
      · exact ih h2

theorem paired_offsets_no_empty :
    ∀ {segs : List (List Nat)} {rp ap : Nat}, ([] : List Nat) ∉ segs →
      ∀ x ∈ paired_offsets rp ap segs, x.1.2 + rp = x.1.1 + ap := by
  intro segs
  induction segs with
  | nil => intro rp ap _ x hx; simp [paired_offsets] at hx
  | cons s rest ih =>
    intro rp ap hne x hx
    rw [paired_offsets] at hx
    have hs : ¬s.isEmpty := by
      simp only [List.mem_cons, not_or] at hne
      simp [List.isEmpty_iff]
      exact fun h => hne.1 h.symm
    rw [if_neg hs] at hx
    rcases List.mem_cons.mp hx with h1 | h2
    · subst h1
      show ap + rp = rp + ap
      omega
    · have := ih (by simp only [List.mem_cons, not_or] at hne; exact hne.2) x h2
      omega

theorem paired_offsets_mem_segment {segs : List (List Nat)} {rp ap : Nat} {x}
    (hx : x ∈ paired_offsets rp ap segs) : (x.1.2, x.2) ∈ segment_offsets ap segs := by
  have h1 : (x.1.2, x.2) ∈ (paired_offsets rp ap segs).map (fun x => (x.1.2, x.2)) :=
    List.mem_map.mpr ⟨x, hx, rfl⟩
  rw [paired_offsets_true segs rp ap] at h1
  exact (List.mem_filter.mp h1).1

theorem offset_walk_pair :
    ∀ (segs : List (List Nat)) (rp ap e : Nat),
      (offset_walk rp ap e segs).map (fun x => ((x.1.1, x.1.2.1), x.2)) =
        paired_offsets rp ap segs := by
  intro segs
  induction segs with
  | nil => intro rp ap e; rfl
  | cons s rest ih =>
    intro rp ap e
    rw [offset_walk, paired_offsets]
    by_cases hs : s.isEmpty
    · rw [if_pos hs, if_pos hs]
      exact ih rp (ap + s.length + 1) (e + 1)
    · rw [if_neg hs, if_neg hs, List.map_cons]
      exact congrArg (List.cons _) (ih (rp + s.length + 1) (ap + s.length + 1) e)

theorem offset_walk_eq :
    ∀ (segs : List (List Nat)) (rp ap e : Nat), ap = rp + e →
      ∀ x ∈ offset_walk rp ap e segs, x.1.2.1 = x.1.1 + x.1.2.2 := by
  intro segs
  induction segs with
  | nil => intro rp ap e _ x hx; simp [offset_walk] at hx
  | cons s rest ih =>
    intro rp ap e hinv x hx
    rw [offset_walk] at hx
    by_cases hs : s.isEmpty
    · rw [if_pos hs] at hx
      have hlen : s.length = 0 := by
        rw [List.isEmpty_iff.mp hs]
        rfl
      exact ih rp (ap + s.length + 1) (e + 1) (by omega) x hx
    · rw [if_neg hs] at hx
      rcases List.mem_cons.mp hx with h1 | h1
      · subst h1
        show ap = rp + e
        exact hinv
      · exact ih (rp + s.length + 1) (ap + s.length + 1) e (by omega) x h1

theorem offset_walk_reported (m : List Nat → Bool) :
    ∀ (segs : List (List Nat)) (rp ap e : Nat),
      position_lines m rp (segs.filter (fun s => !s.isEmpty)) =
        ((offset_walk rp ap e segs).filter (fun x => m x.2)).map (fun x => (x.1.1, x.2)) := by
  intro segs
  induction segs with
  | nil => intro rp ap e; rfl
  | cons s rest ih =>
    intro rp ap e
    by_cases hs : s.isEmpty
    · simp only [List.filter_cons, hs, Bool.not_true, offset_walk, if_pos]
      exact ih rp (ap + s.length + 1) (e + 1)
    · have hs' : (!s.isEmpty) = true := by simp [hs]
      rw [List.filter_cons]
      simp only [hs', if_pos]
      rw [offset_walk, if_neg hs, position_lines]
      rw [show rp + s.length + 1 - s.length - 1 = rp from by omega]
      rw [ih (rp + s.length + 1) (ap + s.length + 1) e]
      by_cases hm : m s
      · simp [List.filter_cons, hm]
      · simp [List.filter_cons, hm]

theorem offset_walk_head_nonempty {s : List Nat} (ss : List (List Nat)) (o : Nat)
    (hs : s ≠ []) :
    (offset_walk o o 0 (s :: ss)).head? = some ((o, o, 0), s) := by
  rw [offset_walk, if_neg (by simp [List.isEmpty_iff, hs])]
  rfl

theorem offset_walk_head_newline {s : List Nat} (ss : List (List Nat)) (o : Nat)
    (hs : s ≠ []) :
    (offset_walk o o 0 ([] :: s :: ss)).head? = some ((o, o + 1, 1), s) := by
  rw [offset_walk, if_pos (by simp)]
  rw [offset_walk, if_neg (by simp [List.isEmpty_iff, hs])]
  rfl

/-- `filter` distributes over `flatMap`. -/
theorem filter_flatMap {α β : Type} (l : List α) (f : α → List β) (p : β → Bool) :
    (l.flatMap f).filter p = l.flatMap (fun x => (f x).filter p) := by
  induction l with
  | nil => rfl
  | cons a t ih => simp [List.flatMap_cons, List.filter_append, ih]

/-! The exact matcher is plain byte equality (the prefilter never changes
the result), and the substring matcher is window search. -/

theorem find_iff {v : List Nat} {tf : ToFind} (hv : parse_tofind v = some tf)
    {clear : List Nat} (hc : clear ≠ []) : find tf clear = true ↔ clear = v := by
  cases v with
  | nil => exact absurd hv (by simp [parse_tofind])
  | cons v0 vr =>
    rw [parse_tofind] at hv
    cases hv
    cases clear with
    | nil => exact absurd rfl hc
    | cons c0 cr =>
      have hfind : find (ToFind.mk (v0 :: vr) (fun b => b == v0)
          (fun b => decide (0 < vr.length) && b == vr.getD 0 0)) (c0 :: cr) =
          (if !(c0 == v0) then false
           else if decide (0 < cr.length) &&
               !(decide (0 < vr.length) && cr.getD 0 0 == vr.getD 0 0) then false
           else ((v0 :: vr : List Nat) == c0 :: cr)) := rfl
      rw [hfind]
      by_cases h0 : c0 = v0
      · subst h0
        rw [if_neg (by simp)]
        by_cases hknock : (decide (0 < cr.length) &&
            !(decide (0 < vr.length) && cr.getD 0 0 == vr.getD 0 0)) = true
        · rw [if_pos hknock]
          simp only [Bool.false_eq_true, false_iff]
          intro heq
          injection heq with h1 htl
          subst htl
          simp at hknock
        · rw [if_neg hknock]
          constructor
          · intro h
            exact (beq_iff_eq.mp h).symm
          · intro h
            exact beq_iff_eq.mpr h.symm
      · rw [if_pos (by simp [h0])]
        simp only [Bool.false_eq_true, false_iff]
        intro heq
        injection heq with h1 htl
        exact h0 h1

theorem parse_tofind_value {v : List Nat} {tf : ToFind} (hv : parse_tofind v = some tf) :
    tf.value = v := by
  cases v with
  | nil => simp [parse_tofind] at hv
  | cons v0 vr => rw [parse_tofind] at hv; cases hv; rfl

theorem parse_tofind_ne_nil {v : List Nat} {tf : ToFind} (hv : parse_tofind v = some tf) :
    v ≠ [] := by
  cases v with
  | nil => simp [parse_tofind] at hv
  | cons v0 vr => simp

theorem substring_iff {v : List Nat} {tf : ToFind} (hv : parse_tofind v = some tf)
    (clear : List Nat) :
    matches_line (.substring tf) clear = true ↔
      ∃ i, i + v.length ≤ clear.length ∧ (clear.drop i).take v.length = v := by
  have hval : tf.value = v := parse_tofind_value hv
  have hvne : v ≠ [] := parse_tofind_ne_nil hv
  have hvpos : 1 ≤ v.length := by
    cases v with
    | nil => exact absurd rfl hvne
    | cons a b => simp
  rw [matches_line, List.any_eq_true]
  constructor
  · rintro ⟨x, hx, hfx⟩
    rw [windows, hval] at hx
    obtain ⟨i, hi, hxi⟩ := List.mem_map.mp hx
    have hir := List.mem_range.mp hi
    have hin : i + v.length ≤ clear.length := by omega
    have hxlen : x.length = v.length := by
      rw [← hxi, List.length_take, List.length_drop]
      omega
    have hxne : x ≠ [] := by
      intro hnil
      rw [hnil] at hxlen
      simp at hxlen
      omega
    have hxv : x = v := (find_iff hv hxne).mp hfx
    exact ⟨i, hin, by rw [hxi, hxv]⟩
  · rintro ⟨i, hin, heq⟩
    refine ⟨v, ?_, (find_iff hv hvne).mpr rfl⟩
    rw [windows, hval]
    exact List.mem_map.mpr ⟨i, List.mem_range.mpr (by omega), heq⟩

/-! Dispatcher loop invariants. -/

theorem dispatchBreak_of_not_first {a : DispatchArgs} {oracle : Nat → Option Stats}
    {count cracked : Nat} (hf : a.first = false) :
    dispatchBreak a oracle count cracked = false := by
  rw [dispatchBreak]
  split
  · cases oracle count with
    | none => rfl
    | some s => simp [hf]
  · rfl

theorem advance_cache_point_mono (csz : Nat) {len cp : Nat} (h : cp ≤ len) :
    cp ≤ advance_cache_point csz len cp ∧ advance_cache_point csz len cp ≤ len := by
  rw [advance_cache_point]; split <;> omega

theorem initialise_cache_point_le (needWarm : Bool) (len csz : Nat) :
    initialise_cache_point needWarm len csz ≤ len := by
  rw [initialise_cache_point]
  split
  · split <;> omega
  · exact le_refl _

/-- With `--first` off the dispatcher consumes the whole file: the nonempty
lines of the dispatched chunks, concatenated in dispatch order, are exactly
the nonempty lines of the not-yet-dispatched part of the file.  The second
conjunct covers the loop exit: once `pos ≥ length - 1`, nothing further is
dispatched. -/
theorem read_wordlist_lines {w : List Nat} {a : DispatchArgs} {oracle : Nat → Option Stats}
    (hf : a.first = false) (hcs : 1 ≤ a.chunkSize) (hw : w.length < USIZE) :
    ∀ fuel pos count cracked cp l tr,
      read_wordlist w a oracle pos count cracked cp fuel = .ok l tr →
      (pos + 1 < w.length →
        l.flatMap (fun oc => nonempty_lines oc.2) = nonempty_lines (w.drop pos)) ∧
      (w.length ≤ pos + 1 → l = []) := by
  intro fuel
  induction fuel with
  | zero =>
    intro pos count cracked cp l tr h
    exact absurd h (by simp [read_wordlist])
  | succ fuel ih =>
    intro pos count cracked cp l tr h
    rw [read_wordlist] at h
    by_cases hg : pos < usizeSub1 w.length
    · rw [if_pos hg] at h
      split at h
      · simp at h
      · rename_i t hft
        rw [if_neg (by simp [dispatchBreak_of_not_first hf])] at h
        obtain ⟨htt, ht1, htl, hnl⟩ := findTo_some hft
        have hw1 : 1 ≤ w.length := le_trans ht1 htl
        have hg' : pos + 1 < w.length := (guard_iff hw1 hw).mp hg
        have htb := tentative_to_bounds hcs hg'
        have hpt : pos + 1 ≤ t := le_trans htb.1 htt
        by_cases hcz : a.cacheSize / 2 = 0
        · rw [if_pos hcz] at h; simp at h
        · rw [if_neg hcz] at h
          obtain ⟨cp2, cs, cps, hrec, hl⟩ :
              ∃ cp2 cs cps, read_wordlist w a oracle (t - 1) (count + 1)
                (dispatchCracked oracle count cracked) cp2 fuel = .ok cs cps ∧
                l = (pos, (w.drop pos).take (t - pos)) :: cs := by
            split at h
            · cases hrec : read_wordlist w a oracle (t - 1) (count + 1)
                  (dispatchCracked oracle count cracked)
                  (advance_cache_point a.cacheSize w.length cp) fuel with
              | ok cs cps =>
                rw [hrec] at h
                injection h with h1 h2
                exact ⟨_, cs, cps, hrec, h1.symm⟩
              | panic => rw [hrec] at h; simp at h
              | fuelOut => rw [hrec] at h; simp at h
            · cases hrec : read_wordlist w a oracle (t - 1) (count + 1)
                  (dispatchCracked oracle count cracked) cp fuel with
              | ok cs cps =>
                rw [hrec] at h
                injection h with h1 h2
                exact ⟨_, cs, cps, hrec, h1.symm⟩
              | panic => rw [hrec] at h; simp at h
              | fuelOut => rw [hrec] at h; simp at h
          have IH := ih (t - 1) (count + 1) (dispatchCracked oracle count cracked) cp2 cs cps hrec
          subst hl
          refine ⟨fun _ => ?_, fun hle => absurd hg' (by omega)⟩
          rw [List.flatMap_cons]
          by_cases htL : t = w.length
          · have hcs0 : cs = [] := IH.2 (by omega)
            have hchunk : (w.drop pos).take (t - pos) = w.drop pos := by
              apply List.take_of_length_le
              rw [List.length_drop]
              omega
            rw [hchunk, hcs0]
            simp
          · have ht10 : w[t - 1]? = some 10 := by
              rcases hnl with h10 | hL
              · exact h10
              · exact absurd hL htL
            have htlt : t < w.length := lt_of_le_of_ne htl htL
            have hIH1 := IH.1 (by omega)
            rw [hIH1]
            -- decompose the tail of the file at the chunk's closing newline
            have hf1 : (w.drop pos).drop (t - pos - 1) = w.drop (t - 1) := by
              rw [List.drop_drop]
              congr 1
              omega
            have hlt' : t - 1 < w.length := by omega
            have hf2 : w.drop (t - 1) = 10 :: w.drop t := by
              rw [List.drop_eq_getElem_cons hlt']
              have h10 : w[t - 1] = 10 := by
                have := List.getElem?_eq_getElem hlt'
                rw [ht10] at this
                exact (Option.some.inj this).symm
              rw [h10, show t - 1 + 1 = t from by omega]
            have hf3 : (w.drop pos).take (t - pos) =
                (w.drop pos).take (t - pos - 1) ++ [10] := by
              have hsucc : t - pos = (t - pos - 1) + 1 := by omega
              rw [hsucc, List.take_succ]
              congr 1
              have : (w.drop pos)[t - pos - 1]? = w[pos + (t - pos - 1)]? :=
                List.getElem?_drop w pos (t - pos - 1)
              rw [show pos + (t - pos - 1) = t - 1 from by omega] at this
              rw [this, ht10]
              rfl
            have hf4 : w.drop pos =
                (w.drop pos).take (t - pos - 1) ++ (10 :: w.drop t) := by
              conv_lhs => rw [← List.take_append_drop (t - pos - 1) (w.drop pos)]
              rw [hf1, hf2]
            rw [hf3, nonempty_lines_end_newline, hf2, nonempty_lines_newline]
            conv_rhs => rw [hf4]
            rw [nonempty_lines_append]
    · rw [if_neg hg] at h
      injection h with h1 h2
      subst h1
      refine ⟨fun hlt => ?_, fun _ => rfl⟩
      have hw1 : 1 ≤ w.length := by omega
      rw [guard_iff hw1 hw] at hg
      exact absurd hlt hg

/-- Shape of every dispatched chunk, in any mode: it is a nonempty slice of
the file taken at its offset, and its last byte is the newline byte or it
reaches the end of the file.  The second conjunct records that the first
chunk of the remaining run starts exactly at the current read cursor. -/
theorem read_wordlist_shape {w : List Nat} {a : DispatchArgs} {oracle : Nat → Option Stats}
    (hcs : 1 ≤ a.chunkSize) (hw : w.length < USIZE) :
    ∀ fuel pos count cracked cp l tr,
      read_wordlist w a oracle pos count cracked cp fuel = .ok l tr →
      (∀ oc ∈ l, oc.2 ≠ [] ∧ oc.2 = (w.drop oc.1).take oc.2.length ∧
        (oc.2.getLast? = some 10 ∨ oc.1 + oc.2.length = w.length)) ∧
      (∀ oc, l.head? = some oc → oc.1 = pos) := by
  intro fuel
  induction fuel with
  | zero =>
    intro pos count cracked cp l tr h
    exact absurd h (by simp [read_wordlist])
  | succ fuel ih =>
    intro pos count cracked cp l tr h
    rw [read_wordlist] at h
    by_cases hg : pos < usizeSub1 w.length
    · rw [if_pos hg] at h
      split at h
      · simp at h
      · rename_i t hft
        obtain ⟨htt, ht1, htl, hnl⟩ := findTo_some hft
        have hw1 : 1 ≤ w.length := le_trans ht1 htl
        have hg' : pos + 1 < w.length := (guard_iff hw1 hw).mp hg
        have htb := tentative_to_bounds hcs hg'
        have hpt : pos + 1 ≤ t := le_trans htb.1 htt
        have hlen : ((w.drop pos).take (t - pos)).length = t - pos := by
          rw [List.length_take, List.length_drop]
          omega
        have hchunk : ∀ oc : Nat × List Nat, oc = (pos, (w.drop pos).take (t - pos)) →
            oc.2 ≠ [] ∧ oc.2 = (w.drop oc.1).take oc.2.length ∧
            (oc.2.getLast? = some 10 ∨ oc.1 + oc.2.length = w.length) := by
          rintro oc rfl
          dsimp only
          refine ⟨?_, by rw [hlen], ?_⟩
          · intro hnil
            rw [hnil] at hlen
            simp at hlen
            omega
          · rcases hnl with h10 | hL
            · left
              rw [List.getLast?_eq_getElem?, hlen]
              have hidx : ((w.drop pos).take (t - pos))[t - pos - 1]? =
                  (w.drop pos)[t - pos - 1]? := by
                rw [List.getElem?_take]
                rw [if_pos (by omega)]
              rw [hidx, List.getElem?_drop,
                show pos + (t - pos - 1) = t - 1 from by omega]
              exact h10
            · right
              rw [hlen]
              omega
        split at h
        · -- dispatchBreak fired: a single final chunk
          injection h with h1 h2
          subst h1
          constructor
          · intro oc hoc
            rcases List.mem_cons.mp hoc with h1 | h1
            · exact hchunk oc h1
            · simp at h1
          · intro oc hoc
            rw [List.head?_cons] at hoc
            cases hoc
            rfl
        · by_cases hcz : a.cacheSize / 2 = 0
          · rw [if_pos hcz] at h
            simp at h
          · rw [if_neg hcz] at h
            obtain ⟨cp2, cs, cps, hrec, hl⟩ :
                ∃ cp2 cs cps, read_wordlist w a oracle (t - 1) (count + 1)
                  (dispatchCracked oracle count cracked) cp2 fuel = .ok cs cps ∧
                  l = (pos, (w.drop pos).take (t - pos)) :: cs := by
              split at h
              · cases hrec : read_wordlist w a oracle (t - 1) (count + 1)
                    (dispatchCracked oracle count cracked)
                    (advance_cache_point a.cacheSize w.length cp) fuel with
                | ok cs cps =>
                  rw [hrec] at h
                  injection h with h1 h2
                  exact ⟨_, cs, cps, hrec, h1.symm⟩
                | panic => rw [hrec] at h; simp at h
                | fuelOut => rw [hrec] at h; simp at h
              · cases hrec : read_wordlist w a oracle (t - 1) (count + 1)
                    (dispatchCracked oracle count cracked) cp fuel with
                | ok cs cps =>
                  rw [hrec] at h
                  injection h with h1 h2
                  exact ⟨_, cs, cps, hrec, h1.symm⟩
                | panic => rw [hrec] at h; simp at h
                | fuelOut => rw [hrec] at h; simp at h
            have IH := ih (t - 1) (count + 1) (dispatchCracked oracle count cracked)
              cp2 cs cps hrec
            subst hl
            constructor
            · intro oc hoc
              rcases List.mem_cons.mp hoc with h1 | h1
              · exact hchunk oc h1
              · exact IH.1 oc h1
            · intro oc hoc
              rw [List.head?_cons] at hoc
              cases hoc
              rfl
    · rw [if_neg hg] at h
      injection h with h1 h2
      subst h1
      exact ⟨fun oc hoc => absurd hoc (by simp), fun oc hoc => absurd hoc (by simp)⟩

/-- Consecutive dispatched chunks tile the file: each next chunk starts at
the previous chunk's closing newline byte (`pos = to - 1`). -/
theorem read_wordlist_chain {w : List Nat} {a : DispatchArgs} {oracle : Nat → Option Stats}
    (hcs : 1 ≤ a.chunkSize) (hw : w.length < USIZE) :
    ∀ fuel pos count cracked cp l tr,
      read_wordlist w a oracle pos count cracked cp fuel = .ok l tr →
      List.Chain' (fun p q : Nat × List Nat => q.1 = p.1 + p.2.length - 1) l := by
  intro fuel
  induction fuel with
  | zero =>
    intro pos count cracked cp l tr h
    exact absurd h (by simp [read_wordlist])
  | succ fuel ih =>
    intro pos count cracked cp l tr h
    rw [read_wordlist] at h
    by_cases hg : pos < usizeSub1 w.length
    · rw [if_pos hg] at h
      split at h
      · simp at h
      · rename_i t hft
        obtain ⟨htt, ht1, htl, hnl⟩ := findTo_some hft
        have hw1 : 1 ≤ w.length := le_trans ht1 htl
        have hg' : pos + 1 < w.length := (guard_iff hw1 hw).mp hg
        have htb := tentative_to_bounds hcs hg'
        have hpt : pos + 1 ≤ t := le_trans htb.1 htt
        have hlen : ((w.drop pos).take (t - pos)).length = t - pos := by
          rw [List.length_take, List.length_drop]
          omega
        split at h
        · injection h with h1 h2
          subst h1
          exact List.chain'_singleton _
        · by_cases hcz : a.cacheSize / 2 = 0
          · rw [if_pos hcz] at h
            simp at h
          · rw [if_neg hcz] at h
            obtain ⟨cp2, cs, cps, hrec, hl⟩ :
                ∃ cp2 cs cps, read_wordlist w a oracle (t - 1) (count + 1)
                  (dispatchCracked oracle count cracked) cp2 fuel = .ok cs cps ∧
                  l = (pos, (w.drop pos).take (t - pos)) :: cs := by
              split at h
              · cases hrec : read_wordlist w a oracle (t - 1) (count + 1)
                    (dispatchCracked oracle count cracked)
                    (advance_cache_point a.cacheSize w.length cp) fuel with
                | ok cs cps =>
                  rw [hrec] at h
                  injection h with h1 h2
                  exact ⟨_, cs, cps, hrec, h1.symm⟩
                | panic => rw [hrec] at h; simp at h
                | fuelOut => rw [hrec] at h; simp at h
              · cases hrec : read_wordlist w a oracle (t - 1) (count + 1)
                    (dispatchCracked oracle count cracked) cp fuel with
                | ok cs cps =>
                  rw [hrec] at h
                  injection h with h1 h2
                  exact ⟨_, cs, cps, hrec, h1.symm⟩
                | panic => rw [hrec] at h; simp at h
                | fuelOut => rw [hrec] at h; simp at h
            subst hl
            rw [List.chain'_cons']
            refine ⟨?_, ih _ _ _ _ _ _ hrec⟩
            intro y hy
            have hhead := (read_wordlist_shape hcs hw fuel (t - 1) (count + 1)
              (dispatchCracked oracle count cracked) cp2 cs cps hrec).2 y hy
            rw [hhead, hlen]
            omega
    · rw [if_neg hg] at h
      injection h with h1 h2
      subst h1
      exact List.chain'_nil

/-- The `cache_point` trace is monotone and bounded by the file length. -/
theorem read_wordlist_cache {w : List Nat} {a : DispatchArgs} {oracle : Nat → Option Stats} :
    ∀ fuel pos count cracked cp l tr, cp ≤ w.length →
      read_wordlist w a oracle pos count cracked cp fuel = .ok l tr →
      List.Chain' (· ≤ ·) (cp :: tr) ∧ ∀ x ∈ tr, x ≤ w.length := by
  intro fuel
  induction fuel with
  | zero =>
    intro pos count cracked cp l tr hcp h
    exact absurd h (by simp [read_wordlist])
  | succ fuel ih =>
    intro pos count cracked cp l tr hcp h
    rw [read_wordlist] at h
    by_cases hg : pos < usizeSub1 w.length
    · rw [if_pos hg] at h
      split at h
      · simp at h
      · rename_i t hft
        split at h
        · injection h with h1 h2
          subst h2
          exact ⟨List.chain'_singleton _, by simp⟩
        · by_cases hcz : a.cacheSize / 2 = 0
          · rw [if_pos hcz] at h
            simp at h
          · rw [if_neg hcz] at h
            split at h
            · cases hrec : read_wordlist w a oracle (t - 1) (count + 1)
                  (dispatchCracked oracle count cracked)
                  (advance_cache_point a.cacheSize w.length cp) fuel with
              | ok cs cps =>
                rw [hrec] at h
                injection h with h1 h2
                subst h2
                have hadv := advance_cache_point_mono a.cacheSize hcp
                have IH := ih _ _ _ _ _ _ hadv.2 hrec
                refine ⟨?_, ?_⟩
                · rw [List.chain'_cons]
                  exact ⟨hadv.1, IH.1⟩
                · intro x hx
                  rcases List.mem_cons.mp hx with h1 | h1
                  · subst h1; exact hadv.2
                  · exact IH.2 x h1
              | panic => rw [hrec] at h; simp at h
              | fuelOut => rw [hrec] at h; simp at h
            · cases hrec : read_wordlist w a oracle (t - 1) (count + 1)
                  (dispatchCracked oracle count cracked) cp fuel with
              | ok cs cps =>
                rw [hrec] at h
                injection h with h1 h2
                subst h2
                exact ih _ _ _ _ _ _ hcp hrec
              | panic => rw [hrec] at h; simp at h
              | fuelOut => rw [hrec] at h; simp at h
    · rw [if_neg hg] at h
      injection h with h1 h2
      subst h2
      exact ⟨List.chain'_singleton _, by simp⟩

/-- With `--first` on, the dispatcher's chunk sequence is a prefix of the
sequence it would dispatch with `--first` off: the break only cuts the run
short, it never changes or reorders the chunks already sent. -/
theorem read_wordlist_first_stop {w : List Nat} {cs0 csz0 : Nat} {oracle : Nat → Option Stats} :
    ∀ fuel pos count cracked cp l tr l2 tr2,
      read_wordlist w ⟨cs0, csz0, true⟩ oracle pos count cracked cp fuel = .ok l tr →
      read_wordlist w ⟨cs0, csz0, false⟩ oracle pos count cracked cp fuel = .ok l2 tr2 →
      ∃ d, l ++ d = l2 := by
  intro fuel
  induction fuel with
  | zero =>
    intro pos count cracked cp l tr l2 tr2 h1 h2
    exact absurd h1 (by simp [read_wordlist])
  | succ fuel ih =>
    intro pos count cracked cp l tr l2 tr2 h1 h2
    rw [read_wordlist] at h1 h2
    dsimp only at h1 h2
    by_cases hg : pos < usizeSub1 w.length
    · rw [if_pos hg] at h1 h2
      split at h1
      · simp at h1
      · rename_i t hft1
        split at h2
        · rename_i hft2
          rw [hft1] at hft2
          cases hft2
        · rename_i t2 hft2
          rw [hft1] at hft2
          injection hft2 with ht2
          subst ht2
          have hbf2 : dispatchBreak (⟨cs0, csz0, false⟩ : DispatchArgs) oracle
              count cracked = false := dispatchBreak_of_not_first rfl
          rw [if_neg (by simp [hbf2])] at h2
          by_cases hbrk : dispatchBreak ⟨cs0, csz0, true⟩ oracle count cracked = true
          · rw [if_pos hbrk] at h1
            injection h1 with h1a h1b
            subst h1a
            by_cases hcz : csz0 / 2 = 0
            · rw [if_pos hcz] at h2
              simp at h2
            · rw [if_neg hcz] at h2
              obtain ⟨cs2, hl2⟩ :
                  ∃ cs2, l2 = (pos, (w.drop pos).take (t - pos)) :: cs2 := by
                split at h2
                · cases hrec2 : read_wordlist w ⟨cs0, csz0, false⟩ oracle (t - 1)
                      (count + 1) (dispatchCracked oracle count cracked)
                      (advance_cache_point csz0 w.length cp) fuel with
                  | ok cs2 cps2 =>
                    rw [hrec2] at h2
                    injection h2 with h2a h2b
                    exact ⟨cs2, h2a.symm⟩
                  | panic => rw [hrec2] at h2; simp at h2
                  | fuelOut => rw [hrec2] at h2; simp at h2
                · cases hrec2 : read_wordlist w ⟨cs0, csz0, false⟩ oracle (t - 1)
                      (count + 1) (dispatchCracked oracle count cracked) cp fuel with
                  | ok cs2 cps2 =>
                    rw [hrec2] at h2
                    injection h2 with h2a h2b
                    exact ⟨cs2, h2a.symm⟩
                  | panic => rw [hrec2] at h2; simp at h2
                  | fuelOut => rw [hrec2] at h2; simp at h2
              exact ⟨cs2, by rw [hl2]; rfl⟩
          · rw [if_neg hbrk] at h1
            by_cases hcz : csz0 / 2 = 0
            · rw [if_pos hcz] at h1
              simp at h1
            · rw [if_neg hcz] at h1 h2
              by_cases htrig : (t - 1) % (csz0 / 2) ≤ cs0 ∧ cp < w.length
              · rw [if_pos htrig] at h1 h2
                cases hrec1 : read_wordlist w ⟨cs0, csz0, true⟩ oracle (t - 1)
                    (count + 1) (dispatchCracked oracle count cracked)
                    (advance_cache_point csz0 w.length cp) fuel with
                | ok cs1 cps1 =>
                  rw [hrec1] at h1
                  cases hrec2 : read_wordlist w ⟨cs0, csz0, false⟩ oracle (t - 1)
                      (count + 1) (dispatchCracked oracle count cracked)
                      (advance_cache_point csz0 w.length cp) fuel with
                  | ok cs2 cps2 =>
                    rw [hrec2] at h2
                    injection h1 with h1a h1b
                    injection h2 with h2a h2b
                    subst h1a
                    obtain ⟨d, hd⟩ := ih _ _ _ _ _ _ _ _ hrec1 hrec2
                    refine ⟨d, ?_⟩
                    rw [← h2a, ← hd]
                    rfl
                  | panic => rw [hrec2] at h2; simp at h2
                  | fuelOut => rw [hrec2] at h2; simp at h2
                | panic => rw [hrec1] at h1; simp at h1
                | fuelOut => rw [hrec1] at h1; simp at h1
              · rw [if_neg htrig] at h1 h2
                cases hrec1 : read_wordlist w ⟨cs0, csz0, true⟩ oracle (t - 1)
                    (count + 1) (dispatchCracked oracle count cracked) cp fuel with
                | ok cs1 cps1 =>
                  rw [hrec1] at h1
                  cases hrec2 : read_wordlist w ⟨cs0, csz0, false⟩ oracle (t - 1)
                      (count + 1) (dispatchCracked oracle count cracked) cp fuel with
                  | ok cs2 cps2 =>
                    rw [hrec2] at h2
                    injection h1 with h1a h1b
                    injection h2 with h2a h2b
                    subst h1a
                    obtain ⟨d, hd⟩ := ih _ _ _ _ _ _ _ _ hrec1 hrec2
                    refine ⟨d, ?_⟩
                    rw [← h2a, ← hd]
                    rfl
                  | panic => rw [hrec2] at h2; simp at h2
                  | fuelOut => rw [hrec2] at h2; simp at h2
                | panic => rw [hrec1] at h1; simp at h1
                | fuelOut => rw [hrec1] at h1; simp at h1
    · rw [if_neg hg] at h1 h2
      injection h1 with h1a h1b
      injection h2 with h2a h2b
      subst h1a
      exact ⟨l2, by rw [← h2a]; rfl⟩

/-! Claim theorems. -/

/-- C1 (counterexample): the claim "a line is emitted iff it matches, for
every input file" fails on a one-byte file: with `--first` off and the exact
matcher for `"a"`, the file `"a"` contains the matching nonempty line `"a"`,
yet the pipeline's output is empty, because the dispatcher guard
`pos < length - 1` never admits a one-byte file. -/
theorem c1_counterexample :
    pipeline [97] argsDefault oracleNone (.exact tofindA) 1 5 = some [] ∧
    nonempty_lines [97] = [[97]] ∧
    matches_line (.exact tofindA) [97] = true :=
  ⟨by decide, by decide, by decide⟩

/-- C1 (amended): for every input file of at least two bytes on which the
dispatcher run completes, with `--first` off, the pipeline output is exactly
the matching nonempty lines of the file, in file order; in particular a
nonempty line is emitted (at least once, as a multiset) iff the selected
matcher mode matches it. -/
theorem c1_completeness {w : List Nat} {a : DispatchArgs} {oracle : Nat → Option Stats}
    {mode : MatchMode} {cp fuel : Nat} {out : List (List Nat)}
    (hout : pipeline w a oracle mode cp fuel = some out)
    (hfirst : a.first = false) (hcs : 1 ≤ a.chunkSize) (hw : w.length < USIZE)
    (hlen : 2 ≤ w.length) :
    out = (nonempty_lines w).filter (matches_line mode) ∧
    ∀ L, L ∈ out ↔ (L ∈ nonempty_lines w ∧ matches_line mode L = true) := by
  rw [pipeline] at hout
  split at hout
  · rename_i cs cps hD
    injection hout with hout
    have hmain := (read_wordlist_lines hfirst hcs hw fuel 0 1 0 cp cs cps hD).1 (by omega)
    rw [List.drop_zero] at hmain
    have hcomm : cs.flatMap (fun oc => (nonempty_lines oc.2).filter (matches_line mode)) =
        (nonempty_lines w).filter (matches_line mode) := by
      rw [← filter_flatMap, hmain]
    constructor
    · rw [← hout, hcomm]
    · intro L
      rw [← hout, hcomm, List.mem_filter]
  · simp at hout

/-- C1 (witness): on the file `"a\nb\n"` with the exact matcher for `"a"`,
the output is exactly the matching line `"a"`. -/
theorem c1_completeness_witness :
    ([[97]] : List (List Nat)) =
      (nonempty_lines [97, 10, 98, 10]).filter (matches_line (.exact tofindA)) ∧
    ([97] ∈ ([[97]] : List (List Nat)) ↔
      ([97] ∈ nonempty_lines [97, 10, 98, 10] ∧
        matches_line (.exact tofindA) [97] = true)) := by
  have hout : pipeline [97, 10, 98, 10] argsDefault oracleNone (.exact tofindA) 4 5 =
      some [[97]] := by decide
  have h := c1_completeness hout rfl (by decide) (by decide) (by decide)
  exact ⟨h.1, h.2 [97]⟩

/-- C2 (counterexample): with `--position`, a 2-byte shard on the file
`"aa\nbb\n"` and the exact matcher for `"bb"`, the pipeline emits prefix 2
for the line `"bb"`, but the line's first byte is at offset 3: reading two
bytes at the reported prefix yields `"\nb"`, not `"bb"`. -/
theorem c2_counterexample :
    pipelinePos [97, 97, 10, 98, 98, 10] argsShard2 oracleNone (.exact tofindBB) 6 10 =
      some [(2, [98, 98])] ∧
    (([97, 97, 10, 98, 98, 10] : List Nat).drop 3).take 2 = [98, 98] ∧
    (([97, 97, 10, 98, 98, 10] : List Nat).drop 2).take 2 ≠ [98, 98] :=
  ⟨by decide, by decide, by decide⟩

/-- C2 (amended): for every chunk `(o, c)` a completing dispatcher run
sends, the worker's `--position` output over that chunk is exactly the
matching lines paired with the reported offsets of the offset walk, and in
that walk each line's true first-byte offset equals the reported offset
plus the number of empty split segments preceding the line in its chunk
(so the prefix equals the true offset minus the preceding empties and
never exceeds it), the line is reproduced by reading `len(line)` bytes of
the file at the true offset, and reported and true offsets agree exactly
when no empty segment precedes the line.  In particular a chunk whose
first split segment is nonempty reports its first line at the exact
offset `o`, while a chunk beginning with the newline byte (every
non-initial chunk, by the `pos = to - 1` convention) reports its first
line at `o`, one less than its true offset `o + 1`. -/
theorem c2_position {w : List Nat} {a : DispatchArgs} {oracle : Nat → Option Stats}
    {cp fuel : Nat} {l : List (Nat × List Nat)} {tr : List Nat}
    (hok : read_wordlist w a oracle 0 1 0 cp fuel = .ok l tr)
    (hcs : 1 ≤ a.chunkSize) (hw : w.length < USIZE)
    {o : Nat} {c : List Nat} (hmem : (o, c) ∈ l) (m : List Nat → Bool) :
    worker_positions m o c =
      ((offset_walk o o 0 (split_newlines c)).filter (fun x => m x.2)).map
        (fun x => (x.1.1, x.2)) ∧
    (∀ x ∈ offset_walk o o 0 (split_newlines c),
      x.1.2.1 = x.1.1 + x.1.2.2 ∧
      x.1.1 ≤ x.1.2.1 ∧
      (w.drop x.1.2.1).take x.2.length = x.2 ∧
      (x.1.1 = x.1.2.1 ↔ x.1.2.2 = 0)) ∧
    (∀ s ss, split_newlines c = s :: ss → s ≠ [] →
      (offset_walk o o 0 (split_newlines c)).head? = some ((o, o, 0), s)) ∧
    (∀ c2 s ss, c = 10 :: c2 → split_newlines c2 = s :: ss → s ≠ [] →
      (offset_walk o o 0 (split_newlines c)).head? = some ((o, o + 1, 1), s)) := by
  refine ⟨?_, ?_, ?_, ?_⟩
  · rw [worker_positions]
    exact offset_walk_reported m (split_newlines c) o o 0
  · rintro ⟨⟨r, av, e⟩, s⟩ hx
    dsimp only
    have heq : av = r + e :=
      offset_walk_eq (split_newlines c) o o 0 (by omega) _ hx
    have hy : ((r, av), s) ∈ paired_offsets o o (split_newlines c) := by
      rw [← offset_walk_pair (split_newlines c) o o 0]
      exact List.mem_map.mpr ⟨((r, av, e), s), hx, rfl⟩
    have hshape := (read_wordlist_shape hcs hw fuel 0 1 0 cp l tr hok).1 (o, c) hmem
    refine ⟨heq, by omega, ?_, by omega⟩
    have hseg : (av, s) ∈ segment_offsets o (split_newlines c) :=
      paired_offsets_mem_segment hy
    have hmem2 := segment_offsets_mem hseg
    rw [join_split] at hmem2
    have hlift := take_drop_lift hshape.2.1 hmem2.2
    rwa [show o + (av - o) = av from by
      have := hmem2.1
      omega] at hlift
  · intro s ss hsplit hs
    rw [hsplit]
    exact offset_walk_head_nonempty ss o hs
  · intro c2 s ss hc2 hsplit hs
    rw [hc2, show split_newlines (10 :: c2) = [] :: split_newlines c2 from by
      simpa using split_newlines_append [] c2, hsplit]
    exact offset_walk_head_newline ss o hs

/-- C2 (witness): in the second chunk `(2, "\nbb\n")` of the counterexample
run, the line `"bb"` carries reported offset 2, true offset 3 and one
preceding empty segment: the true offset is the prefix plus that one
skipped empty, the file reproduces the line at offset 3 and not at the
prefix, and the agreement test is genuinely false on both sides; the
chunk begins with the newline byte, and its first line's walk entry is
exactly `((2, 3, 1), "bb")`. -/
theorem c2_position_witness :
    ((3 : Nat) = 2 + 1 ∧ (2 : Nat) ≤ 3 ∧
      (([97, 97, 10, 98, 98, 10] : List Nat).drop 3).take
        ([98, 98] : List Nat).length = [98, 98] ∧
      ((2 : Nat) = 3 ↔ (1 : Nat) = 0)) ∧
    (offset_walk 2 2 0 (split_newlines [10, 98, 98, 10])).head? =
      some ((2, 3, 1), [98, 98]) := by
  have hok : read_wordlist [97, 97, 10, 98, 98, 10] argsShard2 oracleNone 0 1 0 6 10 =
      .ok [(0, [97, 97, 10]), (2, [10, 98, 98, 10])] [] := by decide
  have hmem : ((2 : Nat), ([10, 98, 98, 10] : List Nat)) ∈
      [((0 : Nat), ([97, 97, 10] : List Nat)), (2, [10, 98, 98, 10])] := by decide
  have h := c2_position hok (by decide) (by decide) hmem (find tofindBB)
  constructor
  · exact h.2.1 ((2, 3, 1), [98, 98]) (by decide)
  · exact h.2.2.2 [98, 98, 10] [98, 98] [[]] rfl (by decide) (by decide)

/-- C3 (counterexample): with `--first` on, the file `"a\na\n"` fits in a
single chunk, the dispatcher never reaches a checkin (they happen every 50
chunks), and the worker emits every match in its chunk: stdout contains the
matching line `"a"` twice, not at most once. -/
theorem c3_counterexample :
    pipeline [97, 10, 97, 10] argsDefaultFirst oracleNone (.exact tofindA) 4 5 =
      some [[97], [97]] ∧
    matches_line (.exact tofindA) [97] = true :=
  ⟨by decide, by decide⟩

/-- C3 (amended): with `--first` on the dispatcher only stops early: the
chunks it sends are a prefix of the chunks the same run would send with
`--first` off.  Workers still emit every match inside dispatched chunks, so
stdout may contain more than one matching line. -/
theorem c3_first_stop {w : List Nat} {cs0 csz0 : Nat} {oracle : Nat → Option Stats}
    {pos count cracked cp fuel : Nat} {l l2 : List (Nat × List Nat)} {tr tr2 : List Nat}
    (h1 : read_wordlist w ⟨cs0, csz0, true⟩ oracle pos count cracked cp fuel = .ok l tr)
    (h2 : read_wordlist w ⟨cs0, csz0, false⟩ oracle pos count cracked cp fuel = .ok l2 tr2) :
    ∃ d, l ++ d = l2 :=
  read_wordlist_first_stop fuel pos count cracked cp l tr l2 tr2 h1 h2

/-- C3 (witness): on `"a\na\n"` the `--first` run dispatches a chunk list
that extends to the `--first`-off run's chunk list. -/
theorem c3_first_stop_witness :
    ∃ d, ([(0, [97, 10, 97, 10])] : List (Nat × List Nat)) ++ d =
      [(0, [97, 10, 97, 10])] := by
  have h1 : read_wordlist [97, 10, 97, 10] ⟨393728, 2147483648, true⟩ oracleNone
      0 1 0 4 5 = .ok [(0, [97, 10, 97, 10])] [] := by decide
  have h2 : read_wordlist [97, 10, 97, 10] ⟨393728, 2147483648, false⟩ oracleNone
      0 1 0 4 5 = .ok [(0, [97, 10, 97, 10])] [] := by decide
  exact c3_first_stop h1 h2

/-- C4: for every pattern accepted by `parse_tofind` and every non-empty
line, the prefilter-gated `find` computes exactly plain byte-for-byte
equality of the line with the pattern value: the start/second tables never
change the result. -/
theorem c4_exact_equal {v : List Nat} {tf : ToFind} (hv : parse_tofind v = some tf)
    {clear : List Nat} (hc : clear ≠ []) :
    find tf clear = exactEqualSpec v clear := by
  have h := find_iff hv hc
  rw [exactEqualSpec]
  by_cases hcv : clear = v
  · rw [h.mpr hcv, beq_iff_eq.mpr hcv]
  · have hf : find tf clear = false := by
      cases hfe : find tf clear
      · rfl
      · exact absurd (h.mp hfe) hcv
    have hb : (clear == v) = false := beq_eq_false_iff_ne.mpr hcv
    rw [hf, hb]

/-- C4 (witness): for the pattern `"bb"`, `find` agrees with plain equality
on an equal and on an unequal line. -/
theorem c4_exact_equal_witness :
    find tofindBB [98, 98] = exactEqualSpec [98, 98] [98, 98] ∧
    find tofindBB [98, 99] = exactEqualSpec [98, 98] [98, 99] := by
  have htf : parse_tofind [98, 98] = some tofindBB := rfl
  exact ⟨c4_exact_equal htf (by simp), c4_exact_equal htf (by simp)⟩

/-- C5: for every pattern accepted by `parse_tofind` (hence non-empty) and
every non-empty line, the substring matcher succeeds iff some window of
`len(value)` bytes of the line equals the value; in particular it fails on
every line shorter than the value. -/
theorem c5_substring {v : List Nat} {tf : ToFind} (hv : parse_tofind v = some tf)
    {clear : List Nat} (hc : clear ≠ []) :
    (matches_line (.substring tf) clear = true ↔
      ∃ i, i + v.length ≤ clear.length ∧ (clear.drop i).take v.length = v) ∧
    (clear.length < v.length → matches_line (.substring tf) clear = false) := by
  refine ⟨substring_iff hv clear, fun hlt => ?_⟩
  cases hm : matches_line (.substring tf) clear
  · rfl
  · obtain ⟨i, hi, -⟩ := (substring_iff hv clear).mp hm
    omega

/-- C5 (witness): `"bb"` occurs in `"abbc"` and cannot occur in the shorter
line `"a"`. -/
theorem c5_substring_witness :
    matches_line (.substring tofindBB) [97, 98, 98, 99] = true ∧
    matches_line (.substring tofindBB) [97] = false := by
  have htf : parse_tofind [98, 98] = some tofindBB := rfl
  constructor
  · exact (c5_substring htf (by simp)).1.mpr ⟨1, by decide, by decide⟩
  · exact (c5_substring htf (by simp)).2 (by decide)

/-- C6: every chunk a completing dispatcher run sends is a nonempty slice of
the file at its offset whose last byte is the newline byte, unless it
reaches the end of the file; consecutive chunks tile the file, each starting
at the previous chunk's closing newline; and with `--first` off the nonempty
lines of the chunks are exactly the nonempty lines of the file, so no line
is ever split across two chunks. -/
theorem c6_chunk_boundaries {w : List Nat} {a : DispatchArgs} {oracle : Nat → Option Stats}
    {cp fuel : Nat} {l : List (Nat × List Nat)} {tr : List Nat}
    (hok : read_wordlist w a oracle 0 1 0 cp fuel = .ok l tr)
    (hcs : 1 ≤ a.chunkSize) (hw : w.length < USIZE) :
    (∀ oc ∈ l, oc.2 ≠ [] ∧ oc.2 = (w.drop oc.1).take oc.2.length ∧
      (oc.2.getLast? = some 10 ∨ oc.1 + oc.2.length = w.length)) ∧
    List.Chain' (fun p q : Nat × List Nat => q.1 = p.1 + p.2.length - 1) l ∧
    (a.first = false → 2 ≤ w.length →
      l.flatMap (fun oc => nonempty_lines oc.2) = nonempty_lines w) := by
  refine ⟨(read_wordlist_shape hcs hw fuel 0 1 0 cp l tr hok).1,
    read_wordlist_chain hcs hw fuel 0 1 0 cp l tr hok, fun hf hlen => ?_⟩
  have h := (read_wordlist_lines hf hcs hw fuel 0 1 0 cp l tr hok).1 (by omega)
  rwa [List.drop_zero] at h

/-- C6 (witness): the two chunks of the shard-2 run on `"aa\nbb\n"` carry
exactly the file's nonempty lines. -/
theorem c6_chunk_boundaries_witness :
    ([(0, [97, 97, 10]), (2, [10, 98, 98, 10])] : List (Nat × List Nat)).flatMap
      (fun oc => nonempty_lines oc.2) = nonempty_lines [97, 97, 10, 98, 98, 10] := by
  have hok : read_wordlist [97, 97, 10, 98, 98, 10] argsShard2 oracleNone 0 1 0 6 10 =
      .ok [(0, [97, 97, 10]), (2, [10, 98, 98, 10])] [] := by decide
  exact (c6_chunk_boundaries hok (by decide) (by decide)).2.2 rfl (by decide)

/-- C7: starting from the `cache_point` chosen by `initialise_wordlist`, the
successive `cache_point` values of a completing dispatcher run form a
monotonically non-decreasing chain bounded by the file length. -/
theorem c7_cache_monotone {w : List Nat} {a : DispatchArgs} {oracle : Nat → Option Stats}
    (needWarm : Bool) {pos count cracked fuel : Nat}
    {l : List (Nat × List Nat)} {tr : List Nat}
    (h : read_wordlist w a oracle pos count cracked
      (initialise_cache_point needWarm w.length a.cacheSize) fuel = .ok l tr) :
    initialise_cache_point needWarm w.length a.cacheSize ≤ w.length ∧
    List.Chain' (· ≤ ·) (initialise_cache_point needWarm w.length a.cacheSize :: tr) ∧
    ∀ x ∈ tr, x ≤ w.length := by
  have h0 := initialise_cache_point_le needWarm w.length a.cacheSize
  have hc := read_wordlist_cache fuel pos count cracked _ l tr h0 h
  exact ⟨h0, hc.1, hc.2⟩

/-- C7 (witness): the shard-2 run on `"aa\nbb\n"` with a warm cache keeps
`cache_point` at the file length throughout. -/
theorem c7_cache_monotone_witness :
    initialise_cache_point false ([97, 97, 10, 98, 98, 10] : List Nat).length
      argsShard2.cacheSize ≤ ([97, 97, 10, 98, 98, 10] : List Nat).length ∧
    List.Chain' (· ≤ ·) (initialise_cache_point false
      ([97, 97, 10, 98, 98, 10] : List Nat).length argsShard2.cacheSize :: []) ∧
    ∀ x ∈ ([] : List Nat), x ≤ ([97, 97, 10, 98, 98, 10] : List Nat).length := by
  have h : read_wordlist [97, 97, 10, 98, 98, 10] argsShard2 oracleNone 0 1 0
      (initialise_cache_point false ([97, 97, 10, 98, 98, 10] : List Nat).length
        argsShard2.cacheSize) 10 =
      .ok [(0, [97, 97, 10]), (2, [10, 98, 98, 10])] [] := by decide
  exact c7_cache_monotone false h

/-- C8 (counterexample): the claim that pattern setup cannot abort outside
regex mode is false: `setup_workers` runs `Regex::new(...).unwrap()`
unconditionally, so with a compiler that rejects the pattern `"("` the setup
panics even though `--regex` is off and `--exact` is on. -/
theorem c8_counterexample :
    setup_workers (fun _ => none) tofindParen [40] true false = .panicRegex ∧
    parse_tofind [40] = some tofindParen :=
  ⟨rfl, rfl⟩

/-- C8 (amended): regex compilation of the pattern happens during worker
setup in every mode, and setup aborts exactly when compilation fails,
independently of the `--exact` and `--regex` flags. -/
theorem c8_regex_always_compiled (compile : List Nat → Option (List Nat → Bool))
    (tf : ToFind) (pattern : List Nat) (exactFlag regexFlag : Bool) :
    setup_workers compile tf pattern exactFlag regexFlag = .panicRegex ↔
      compile pattern = none := by
  cases hc : compile pattern with
  | none => rw [setup_workers, hc]; simp
  | some re => rw [setup_workers, hc]; simp

/-- C9: `parse_tofind` indexes `value[0]` without a length check, so every
run with the empty pattern panics during pattern parsing, before the
wordlist is ever opened (the result does not depend on the file); a pattern
is accepted exactly when it is non-empty. -/
theorem c9_empty_pattern :
    (∀ (w : List Nat) (a : DispatchArgs) (oracle : Nat → Option Stats)
      (needWarm exactFlag regexFlag : Bool) (re : List Nat → Bool) (fuel : Nat),
      run_main [] w a oracle needWarm exactFlag regexFlag re fuel = .panicParse) ∧
    (∀ p : List Nat, (parse_tofind p).isSome = true ↔ p ≠ []) := by
  constructor
  · intro w a oracle nw e r re fuel
    rfl
  · intro p
    cases p <;> simp [parse_tofind]

/-- C10: a one-byte wordlist is rejected by the dispatcher guard
`pos < length - 1`, so no chunk is sent and its single line is never
examined or emitted even when it matches exactly; and for the empty
wordlist the guard's `usize` subtraction wraps around, the loop is entered
and the first chunk-end search immediately panics on an out-of-bounds
index, again before any chunk is sent. -/
theorem c10_tiny_files (a : DispatchArgs) (oracle : Nat → Option Stats)
    (cp : Nat) {fuel : Nat} (hfuel : 1 ≤ fuel) (c : Nat) (hc : c ≠ 10)
    {tf : ToFind} (htf : parse_tofind [c] = some tf) :
    read_wordlist [c] a oracle 0 1 0 cp fuel = .ok [] [] ∧
    nonempty_lines [c] = [[c]] ∧
    matches_line (.exact tf) [c] = true ∧
    pipeline [c] a oracle (.exact tf) cp fuel = some [] ∧
    usizeSub1 0 = USIZE - 1 ∧ 0 < usizeSub1 0 ∧
    read_wordlist [] a oracle 0 1 0 cp fuel = .panic := by
  obtain ⟨f, rfl⟩ : ∃ f, fuel = f + 1 := by
    cases fuel with
    | zero => omega
    | succ f => exact ⟨f, rfl⟩
  have hone : usizeSub1 ([c] : List Nat).length = 0 := by
    rw [show ([c] : List Nat).length = 1 from rfl,
      usizeSub1_eq (le_refl 1) (by norm_num [USIZE])]
  have hA : read_wordlist [c] a oracle 0 1 0 cp (f + 1) = .ok [] [] := by
    rw [read_wordlist, if_neg (by rw [hone]; omega)]
  refine ⟨hA, ?_, ?_, ?_, usizeSub1_zero, ?_, ?_⟩
  · simp [nonempty_lines, split_newlines, split_newlines_core, hc]
  · exact (find_iff htf (by simp)).mpr rfl
  · rw [pipeline, hA]
    rfl
  · rw [usizeSub1_zero]
    norm_num [USIZE]
  · rw [read_wordlist,
      if_pos (by simp only [List.length_nil, usizeSub1_zero]; norm_num [USIZE])]
    have ht : tentative_to [] 0 a.chunkSize = 0 := by
      rw [tentative_to, if_pos (by simp)]
      rfl
    rw [ht]
    have hf0 : findTo [] 0 = none := rfl
    rw [hf0]

/-- C10 (witness): the one-byte file `"a"` with the exact matcher for `"a"`
produces no chunks and empty output although its line matches, and the
empty file makes the dispatcher panic. -/
theorem c10_tiny_files_witness :
    read_wordlist [97] argsDefault oracleNone 0 1 0 0 1 = .ok [] [] ∧
    nonempty_lines [97] = [[97]] ∧
    matches_line (.exact tofindA) [97] = true ∧
    pipeline [97] argsDefault oracleNone (.exact tofindA) 0 1 = some [] ∧
    usizeSub1 0 = USIZE - 1 ∧ 0 < usizeSub1 0 ∧
    read_wordlist [] argsDefault oracleNone 0 1 0 0 1 = .panic :=
  c10_tiny_files argsDefault oracleNone 0 (le_refl 1) 97 (by decide) rfl

end Singrep
